import Mathlib

/-!
Verification of the patch-generation engine of patch-utils (pkg/json.go).

Strings are modelled as `List Char`; Go maps as association lists whose list
order is the (otherwise nondeterministic) iteration order; a Go string slice
that may be nil as `Option (List (List Char))`.  Each builder's pure core is
translated directly from the source; the apply thunk is modelled by the raw
patch bytes it would send (`none` models a nil PatchFunc).
-/

namespace PatchUtils

/-- Model of Go strings.ReplaceAll for a non-empty pattern: scan left to
right, replacing non-overlapping occurrences of pat by rep.  (Go's special
behaviour for an empty pattern - inserting rep at every boundary - is not
modelled; the guard makes an empty pattern act as the identity.  No call in
the repository uses an empty pattern.) -/
def replaceAll (s pat rep : List Char) : List Char :=
  match s with
  | [] => []
  | c :: rest =>
    if h : pat ≠ [] ∧ pat.isPrefixOf (c :: rest) then
      rep ++ replaceAll ((c :: rest).drop pat.length) pat rep
    else
      c :: replaceAll rest pat rep
termination_by s.length
decreasing_by
  · have hp : 0 < pat.length := List.length_pos.mpr h.1
    simp only [List.length_drop, List.length_cons]
    omega
  · simp

/-- strings.ReplaceAll(strings.ReplaceAll(key, "~", "~0"), "/", "~1") -/
def SanitizeKeyForJsonPatch (key : List Char) : List Char :=
  replaceAll (replaceAll key ['~'] ['~', '0']) ['/'] ['~', '1']

/-- strings.ReplaceAll(strings.ReplaceAll(key, "~1", "/"), "~0", "~") -/
def UnSanitizeKeyForJsonPatch (key : List Char) : List Char :=
  replaceAll (replaceAll key ['~', '1'] ['/']) ['~', '0'] ['~']

/-- One unfolding step of replaceAll on the empty string. -/
theorem replaceAll_nil (pat rep : List Char) : replaceAll [] pat rep = [] := by
  rw [replaceAll.eq_def]

/-- One unfolding step of replaceAll when the pattern matches at the head. -/
theorem replaceAll_cons_pos {pat : List Char} {c : Char} {rest : List Char} (rep : List Char)
    (hne : pat ≠ []) (hpre : pat.isPrefixOf (c :: rest)) :
    replaceAll (c :: rest) pat rep = rep ++ replaceAll ((c :: rest).drop pat.length) pat rep := by
  rw [replaceAll.eq_def]
  exact dif_pos ⟨hne, hpre⟩

/-- One unfolding step of replaceAll when the pattern does not match at the head. -/
theorem replaceAll_cons_neg {pat : List Char} {c : Char} {rest : List Char} (rep : List Char)
    (h : ¬ pat.isPrefixOf (c :: rest) = true) :
    replaceAll (c :: rest) pat rep = c :: replaceAll rest pat rep := by
  rw [replaceAll.eq_def]
  exact dif_neg (fun hh => h hh.2)

/-- Character-level concatenation map, used to characterise replaceAll. -/
def concatMapChar (f : Char → List Char) : List Char → List Char
  | [] => []
  | c :: rest => f c ++ concatMapChar f rest

theorem concatMapChar_nil (f : Char → List Char) : concatMapChar f [] = [] := rfl

theorem concatMapChar_cons (f : Char → List Char) (c : Char) (rest : List Char) :
    concatMapChar f (c :: rest) = f c ++ concatMapChar f rest := rfl

/-- replaceAll with a single-character pattern is a character-wise substitution. -/
theorem replaceAll_single (a : Char) (rep : List Char) (s : List Char) :
    replaceAll s [a] rep = concatMapChar (fun c => if c = a then rep else [c]) s := by
  induction s with
  | nil => rw [replaceAll_nil, concatMapChar_nil]
  | cons c rest ih =>
    rw [concatMapChar_cons]
    by_cases hc : c = a
    · subst hc
      rw [replaceAll_cons_pos rep (by simp) (by simp [List.isPrefixOf])]
      simp [ih]
    · rw [replaceAll_cons_neg rep (by simp [List.isPrefixOf, Ne.symm hc])]
      simp [hc, ih]

/-- The full JSON-pointer escaping of one character (tilde then slash). -/
def encChar (c : Char) : List Char :=
  if c = '~' then ['~', '0'] else if c = '/' then ['~', '1'] else [c]

/-- The tilde-only escaping of one character. -/
def encTilde (c : Char) : List Char :=
  if c = '~' then ['~', '0'] else [c]

theorem concatMapChar_append (f : Char → List Char) (a b : List Char) :
    concatMapChar f (a ++ b) = concatMapChar f a ++ concatMapChar f b := by
  induction a with
  | nil => simp [concatMapChar_nil]
  | cons c rest ih => simp [concatMapChar_cons, ih]

/-- Sanitizing is exactly the character-wise escaping encChar. -/
theorem sanitize_eq_concatMap (s : List Char) :
    SanitizeKeyForJsonPatch s = concatMapChar encChar s := by
  rw [SanitizeKeyForJsonPatch, replaceAll_single, replaceAll_single]
  induction s with
  | nil => simp [concatMapChar_nil]
  | cons c rest ih =>
    rw [concatMapChar_cons, concatMapChar_cons, concatMapChar_append, ih]
    by_cases h0 : c = '~'
    · subst h0; rfl
    · by_cases h1 : c = '/'
      · subst h1; rfl
      · simp [concatMapChar_cons, concatMapChar_nil, encChar, h0, h1]

/-- A pattern whose head differs from the head of the string is not a prefix. -/
theorem not_isPrefixOf_of_head_ne {a : Char} (pat : List Char) {c : Char} (L : List Char)
    (h : ¬ a = c) : ((a :: pat).isPrefixOf (c :: L)) = false := by
  show (a == c && pat.isPrefixOf L) = false
  simp [h]

/-- Undoing the slash-escapes of a fully escaped string leaves the tilde-escapes. -/
theorem unslash_of_encoded (s : List Char) :
    replaceAll (concatMapChar encChar s) ['~', '1'] ['/'] = concatMapChar encTilde s := by
  induction s with
  | nil => rw [concatMapChar_nil, concatMapChar_nil, replaceAll_nil]
  | cons c rest ih =>
    rw [concatMapChar_cons, concatMapChar_cons]
    by_cases h0 : c = '~'
    · subst h0
      show replaceAll ('~' :: '0' :: concatMapChar encChar rest) ['~', '1'] ['/']
          = '~' :: '0' :: concatMapChar encTilde rest
      rw [replaceAll_cons_neg _ (by simp [List.isPrefixOf]),
        replaceAll_cons_neg _ (by simp [List.isPrefixOf]), ih]
    · by_cases h1 : c = '/'
      · subst h1
        show replaceAll ('~' :: '1' :: concatMapChar encChar rest) ['~', '1'] ['/']
            = '/' :: concatMapChar encTilde rest
        rw [replaceAll_cons_pos _ (by simp) (by simp [List.isPrefixOf])]
        simpa using ih
      · have hc : encChar c = [c] := by simp [encChar, h0, h1]
        have ht : encTilde c = [c] := by simp [encTilde, h0]
        rw [hc, ht, List.singleton_append, List.singleton_append,
          replaceAll_cons_neg _ (by rw [not_isPrefixOf_of_head_ne _ _ (Ne.symm h0)]; simp), ih]

/-- Undoing the tilde-escapes of a tilde-escaped string recovers the original. -/
theorem untilde_of_tilde_encoded (s : List Char) :
    replaceAll (concatMapChar encTilde s) ['~', '0'] ['~'] = s := by
  induction s with
  | nil => rw [concatMapChar_nil, replaceAll_nil]
  | cons c rest ih =>
    rw [concatMapChar_cons]
    by_cases h0 : c = '~'
    · subst h0
      show replaceAll ('~' :: '0' :: concatMapChar encTilde rest) ['~', '0'] ['~']
          = '~' :: rest
      rw [replaceAll_cons_pos _ (by simp) (by simp [List.isPrefixOf])]
      simpa using ih
    · have ht : encTilde c = [c] := by simp [encTilde, h0]
      rw [ht, List.singleton_append,
        replaceAll_cons_neg _ (by rw [not_isPrefixOf_of_head_ne _ _ (Ne.symm h0)]; simp), ih]

/-- Un-sanitizing inverts sanitizing on every string. -/
theorem unsanitize_sanitize (s : List Char) :
    UnSanitizeKeyForJsonPatch (SanitizeKeyForJsonPatch s) = s := by
  rw [sanitize_eq_concatMap, UnSanitizeKeyForJsonPatch, unslash_of_encoded,
    untilde_of_tilde_encoded]

/-- JsonPatch encapsulates a JSON patch string. -/
structure JsonPatch where
  patch : List Char
deriving DecidableEq

/-- Get returns the encapsulated patch string. -/
def JsonPatch.Get (p : JsonPatch) : List Char :=
  p.patch

/-- NoPatchRequired is the sentinel error indicating no patches were created. -/
structure NoPatchRequired where
  message : List Char
deriving DecidableEq

/-- fmt.Sprintf of the patchNewMapTemplate
`\x7b"op": "add", "path": "%s", "value": \x7b"%s": "%s"\x7d\x7d`. -/
def patchNewMapRender (path key value : List Char) : List Char :=
  "\x7b\"op\": \"add\", \"path\": \"".toList ++ path ++
    "\", \"value\": \x7b\"".toList ++ key ++ "\": \"".toList ++ value ++ "\"\x7d\x7d".toList

/-- fmt.Sprintf of the patchExistingMapTemplate
`\x7b"op": "%s", "path": "%s/%s", "value": "%s"\x7d`. -/
def patchExistingMapRender (op path key value : List Char) : List Char :=
  "\x7b\"op\": \"".toList ++ op ++ "\", \"path\": \"".toList ++ path ++ "/".toList ++ key ++
    "\", \"value\": \"".toList ++ value ++ "\"\x7d".toList

/-- The "add a new one-element finalizer list" operation string. -/
def addFinalizerNewListRender (finalizer : List Char) : List Char :=
  "\x7b\"op\": \"add\", \"path\": \"/metadata/finalizers\", \"value\": [\"".toList ++
    finalizer ++ "\"]\x7d".toList

/-- The "append a finalizer to the existing list" operation string. -/
def addFinalizerAppendRender (finalizer : List Char) : List Char :=
  "\x7b\"op\": \"add\", \"path\": \"/metadata/finalizers/-\", \"value\": \"".toList ++
    finalizer ++ "\"\x7d".toList

/-- The "remove the whole finalizer list" operation string. -/
def removeAllFinalizersRender : List Char :=
  "\x7b\"op\": \"remove\", \"path\": \"/metadata/finalizers\"\x7d".toList

/-- The "remove the finalizer at index idx" operation string (%d formatting). -/
def removeFinalizerAtRender (idx : Nat) : List Char :=
  "\x7b\"op\": \"remove\", \"path\": \"/metadata/finalizers/".toList ++
    (Nat.repr idx).toList ++ "\"\x7d".toList

/-- The "replace the whole spec" operation string. -/
def replaceSpecRender (marshaled : List Char) : List Char :=
  "\x7b\"op\": \"replace\", \"path\": \"/spec\", \"value\": ".toList ++ marshaled ++
    "\x7d".toList

/-- strings.Join with a comma separator. -/
def joinComma : List (List Char) → List Char
  | [] => []
  | [p] => p
  | p :: rest => p ++ ",".toList ++ joinComma rest

/-- The raw bytes a PatchFunc sends: the operations joined into one JSON array. -/
def patchBody (ops : List (List Char)) : List Char :=
  "[".toList ++ joinComma ops ++ "]".toList

/-- Result of a builder returning one JsonPatch: the patch, the bytes its
PatchFunc would send (`none` models a nil PatchFunc), and the error. -/
structure SinglePatchResult where
  patch : JsonPatch
  thunk : Option (List Char)
  err : Option NoPatchRequired
deriving DecidableEq

/-- Result of the map builder: the patches, the bytes its PatchFunc would
send (`none` models a nil PatchFunc), and the error. -/
structure MapPatchResult where
  patches : List JsonPatch
  thunk : Option (List Char)
  err : Option NoPatchRequired
deriving DecidableEq

/-- Result of the spec builder; err is the serialization error, if any. -/
structure SpecPatchResult where
  patch : JsonPatch
  thunk : Option (List Char)
  err : Option (List Char)
deriving DecidableEq

/-- A Go `[]string` that may be nil: `none` is a nil slice. -/
def getFinalizers : Option (List (List Char)) → List (List Char)
  | none => []
  | some l => l

/-- JsonPatchFinalizerIn: add a finalizer to obj (pure core; the object is
represented by its possibly-nil finalizer slice). -/
def JsonPatchFinalizerIn (finalizers : Option (List (List Char)))
    (finalizer : List Char) : SinglePatchResult :=
  let addFinalizerPatch : JsonPatch :=
    match finalizers with
    | none => ⟨addFinalizerNewListRender finalizer⟩
    | some _ => ⟨addFinalizerAppendRender finalizer⟩
  ⟨addFinalizerPatch, some (patchBody [addFinalizerPatch.Get]), none⟩

/-- The removal loop of JsonPatchFinalizerOut: the patch string after ranging
over the finalizers, breaking at the first match (empty if no match). -/
def removeFinalizerLoop : List (List Char) → List Char → Nat → List Char
  | [], _, _ => []
  | f :: rest, finalizer, idx =>
    if f = finalizer then removeFinalizerAtRender idx
    else removeFinalizerLoop rest finalizer (idx + 1)

/-- JsonPatchFinalizerOut: remove a finalizer from obj (pure core). -/
def JsonPatchFinalizerOut (finalizers : Option (List (List Char)))
    (finalizer : List Char) : SinglePatchResult :=
  let fins := getFinalizers finalizers
  if fins.length = 1 then
    let p : JsonPatch := ⟨removeAllFinalizersRender⟩
    ⟨p, some (patchBody [p.Get]), none⟩
  else
    let p : JsonPatch := ⟨removeFinalizerLoop fins finalizer 0⟩
    if p.Get.length = 0 then
      ⟨p, none, some ⟨"finalizer index not found".toList⟩⟩
    else
      ⟨p, some (patchBody [p.Get]), none⟩

/-- Go map lookup over the association-list model (keys are unique in a Go
map, so first-match lookup is the map lookup). -/
def mapLookup : List (List Char × List Char) → List Char → Option (List Char)
  | [], _ => none
  | (k, v) :: rest, key => if k = key then some v else mapLookup rest key

/-- The empty-original loop of JsonPatchMap: the first entry creates the
container with an un-sanitized inline key, the rest are path-addressed adds. -/
def newMapLoop (path : List Char) :
    List (List Char × List Char) → Bool → List (List Char)
  | [], _ => []
  | (k, v) :: rest, first =>
    if first then
      patchNewMapRender path (UnSanitizeKeyForJsonPatch k) v :: newMapLoop path rest false
    else
      patchExistingMapRender "add".toList path k v :: newMapLoop path rest false

/-- The non-empty-original loop of JsonPatchMap: add absent keys, replace
changed values, skip equal values. -/
def existingMapLoop (path : List Char) (origMap : List (List Char × List Char)) :
    List (List Char × List Char) → List (List Char)
  | [] => []
  | (k, v) :: rest =>
    match mapLookup origMap k with
    | some value =>
      if v ≠ value then
        patchExistingMapRender "replace".toList path k v :: existingMapLoop path origMap rest
      else
        existingMapLoop path origMap rest
    | none =>
      patchExistingMapRender "add".toList path k v :: existingMapLoop path origMap rest

/-- JsonPatchMap: add or replace all members of newMap under path, using
origMap to decide between add and replace (pure core; maps are association
lists whose order is the Go map iteration order). -/
def JsonPatchMap (path : List Char) (origMap newMap : List (List Char × List Char)) :
    MapPatchResult :=
  let patches : List (List Char) :=
    if origMap.length = 0 then newMapLoop path newMap true
    else existingMapLoop path origMap newMap
  let patchObjs : List JsonPatch := patches.map (fun p => ⟨p⟩)
  if patches.length < 1 then
    ⟨patchObjs, none, some ⟨"nothing to patch in map".toList⟩⟩
  else
    ⟨patchObjs, some (patchBody patches), none⟩

/-- JsonPatchSpec: replace the whole spec with the json.Marshal encoding of
the payload (the external marshaller is a parameter). -/
def JsonPatchSpec {T : Type} (marshal : T → Except (List Char) (List Char))
    (spec : T) : SpecPatchResult :=
  match marshal spec with
  | Except.error err => ⟨⟨"".toList⟩, none, some err⟩
  | Except.ok marshaled =>
    let patch : JsonPatch := ⟨replaceSpecRender marshaled⟩
    ⟨patch, some (patchBody [patch.Get]), none⟩

theorem unsanitize_tilde_slash :
    UnSanitizeKeyForJsonPatch ['~', '/'] = ['~', '/'] := by
  have hinner : replaceAll ['~', '/'] ['~', '1'] ['/'] = ['~', '/'] := by
    rw [replaceAll_cons_neg _ (by simp [List.isPrefixOf]),
      replaceAll_cons_neg _ (by simp [List.isPrefixOf]), replaceAll_nil]
  rw [UnSanitizeKeyForJsonPatch, hinner,
    replaceAll_cons_neg _ (by simp [List.isPrefixOf]),
    replaceAll_cons_neg _ (by simp [List.isPrefixOf]), replaceAll_nil]

/-- C5: for every string s, UnSanitizeKeyForJsonPatch (SanitizeKeyForJsonPatch s) = s,
where sanitizing replaces ~ with ~0 then / with ~1 and un-sanitizing replaces
~1 with / then ~0 with ~. -/
theorem c5_unsanitize_of_sanitize (s : List Char) :
    UnSanitizeKeyForJsonPatch (SanitizeKeyForJsonPatch s) = s :=
  unsanitize_sanitize s

/-- C4 counterexample: the string `~/` contains both `~` and `/`, yet
sanitizing its un-sanitization yields `~0~1`, not `~/`; the pair is not a
two-way inverse on all such strings. -/
theorem c4_counterexample :
    ¬ (UnSanitizeKeyForJsonPatch (SanitizeKeyForJsonPatch ['~', '/']) = ['~', '/'] ∧
       SanitizeKeyForJsonPatch (UnSanitizeKeyForJsonPatch ['~', '/']) = ['~', '/']) := by
  intro hcl
  have h2 := hcl.2
  rw [unsanitize_tilde_slash, sanitize_eq_concatMap] at h2
  exact absurd h2 (by decide)

/-- C4 (amended): un-sanitizing inverts sanitizing on every string (in
particular on strings holding `~` and `/` in any combination and count), and
sanitizing inverts un-sanitizing on every string in the image of sanitizing;
on arbitrary strings the second direction can fail. -/
theorem c4_amended_two_way_inverse :
    (∀ t : List Char, UnSanitizeKeyForJsonPatch (SanitizeKeyForJsonPatch t) = t) ∧
    (∀ t s : List Char, t = SanitizeKeyForJsonPatch s →
      SanitizeKeyForJsonPatch (UnSanitizeKeyForJsonPatch t) = t) := by
  refine ⟨unsanitize_sanitize, ?_⟩
  intro t s h
  subst h
  rw [unsanitize_sanitize]

theorem c4_amended_two_way_inverse_witness :
    SanitizeKeyForJsonPatch (UnSanitizeKeyForJsonPatch (SanitizeKeyForJsonPatch ['~', '/'])) =
      SanitizeKeyForJsonPatch ['~', '/'] :=
  c4_amended_two_way_inverse.2 (SanitizeKeyForJsonPatch ['~', '/']) ['~', '/'] rfl

theorem newMapLoop_false (path : List Char) (l : List (List Char × List Char)) :
    newMapLoop path l false =
      l.map (fun kv => patchExistingMapRender "add".toList path kv.1 kv.2) := by
  induction l with
  | nil => rfl
  | cons kv rest ih => cases kv; simp [newMapLoop, ih]

/-- The patches field of JsonPatchMap is the computed operation list (in both
the sentinel and the success branch). -/
theorem jsonPatchMap_patches (path : List Char)
    (origMap newMap : List (List Char × List Char)) :
    (JsonPatchMap path origMap newMap).patches =
      (if origMap.length = 0 then newMapLoop path newMap true
       else existingMapLoop path origMap newMap).map (fun p => (⟨p⟩ : JsonPatch)) := by
  rw [JsonPatchMap]
  split <;> split <;> rfl

/-- C1: with an absent or empty original map and a non-empty desired map, the
builder emits exactly one container-creating add at the target path built
from the first-iterated desired entry with its key un-escaped
(UnSanitizeKeyForJsonPatch), followed by one add at path/key per remaining
desired entry with the key used as-is. -/
theorem c1_map_empty_original (path k v : List Char)
    (rest : List (List Char × List Char)) :
    (JsonPatchMap path [] ((k, v) :: rest)).patches =
      ⟨patchNewMapRender path (UnSanitizeKeyForJsonPatch k) v⟩ ::
        rest.map (fun kv => ⟨patchExistingMapRender "add".toList path kv.1 kv.2⟩) := by
  rw [jsonPatchMap_patches]
  simp [newMapLoop, newMapLoop_false]

theorem existingMapLoop_map_mk (path : List Char)
    (origMap l : List (List Char × List Char)) :
    (existingMapLoop path origMap l).map (fun p => (⟨p⟩ : JsonPatch)) =
      l.filterMap (fun kv =>
        match mapLookup origMap kv.1 with
        | some value =>
          if kv.2 ≠ value then
            some (⟨patchExistingMapRender "replace".toList path kv.1 kv.2⟩ : JsonPatch)
          else none
        | none => some ⟨patchExistingMapRender "add".toList path kv.1 kv.2⟩) := by
  induction l with
  | nil => rfl
  | cons kv rest ih =>
    cases kv with
    | mk k v =>
      rw [List.filterMap_cons]
      cases hlk : mapLookup origMap k with
      | none => simp only [existingMapLoop, hlk, List.map_cons, ih]
      | some value =>
        by_cases hv : v = value
        · simp only [existingMapLoop, hlk]
          simp [hv, ih]
        · simp only [existingMapLoop, hlk]
          simp [hv, ih]

/-- C2: with a non-empty original map, every desired key absent from the
original yields an add at path/key, every key present with a different value
yields a replace at path/key, every key present with an equal value yields
nothing, and every emitted operation is such an add or replace for some
desired entry (in particular no remove is ever emitted). -/
theorem c2_map_nonempty_original (path : List Char)
    (origMap newMap : List (List Char × List Char)) (h : origMap ≠ []) :
    (JsonPatchMap path origMap newMap).patches =
      newMap.filterMap (fun kv =>
        match mapLookup origMap kv.1 with
        | some value =>
          if kv.2 ≠ value then
            some (⟨patchExistingMapRender "replace".toList path kv.1 kv.2⟩ : JsonPatch)
          else none
        | none => some ⟨patchExistingMapRender "add".toList path kv.1 kv.2⟩) ∧
    ∀ jp ∈ (JsonPatchMap path origMap newMap).patches, ∃ kv, kv ∈ newMap ∧
      (jp = ⟨patchExistingMapRender "add".toList path kv.1 kv.2⟩ ∨
       jp = ⟨patchExistingMapRender "replace".toList path kv.1 kv.2⟩) := by
  have hlen : ¬ origMap.length = 0 := by
    simpa [List.length_eq_zero] using h
  have hfirst : (JsonPatchMap path origMap newMap).patches =
      newMap.filterMap (fun kv =>
        match mapLookup origMap kv.1 with
        | some value =>
          if kv.2 ≠ value then
            some (⟨patchExistingMapRender "replace".toList path kv.1 kv.2⟩ : JsonPatch)
          else none
        | none => some ⟨patchExistingMapRender "add".toList path kv.1 kv.2⟩) := by
    rw [jsonPatchMap_patches, if_neg hlen, existingMapLoop_map_mk]
  refine ⟨hfirst, ?_⟩
  intro jp hjp
  rw [hfirst] at hjp
  rcases List.mem_filterMap.mp hjp with ⟨kv, hkv, hF⟩
  refine ⟨kv, hkv, ?_⟩
  cases hlk : mapLookup origMap kv.1 with
  | none =>
    rw [hlk] at hF
    exact Or.inl (Option.some.inj hF).symm
  | some value =>
    rw [hlk] at hF
    by_cases hv : kv.2 = value
    · simp [hv] at hF
    · simp only [hv, ne_eq, not_false_eq_true, if_true] at hF
      exact Or.inr (Option.some.inj hF).symm

theorem c2_map_nonempty_original_witness :
    (JsonPatchMap "/metadata/labels".toList
        [("k1".toList, "v1".toList), ("k2".toList, "v2".toList)]
        [("k1".toList, "v1".toList), ("k3".toList, "v3".toList)]).patches =
      [⟨patchExistingMapRender "add".toList "/metadata/labels".toList
          "k3".toList "v3".toList⟩] := by
  have hmain := (c2_map_nonempty_original "/metadata/labels".toList
    [("k1".toList, "v1".toList), ("k2".toList, "v2".toList)]
    [("k1".toList, "v1".toList), ("k3".toList, "v3".toList)]
    (by decide)).1
  rw [hmain]
  rfl

/-- With unique keys (as in a Go map), looking up the key of any entry finds
that entry's value. -/
theorem mapLookup_self_of_nodup {m : List (List Char × List Char)}
    (hnd : (m.map Prod.fst).Nodup) : ∀ kv ∈ m, mapLookup m kv.1 = some kv.2 := by
  induction m with
  | nil => intro kv hkv; cases hkv
  | cons hd rest ih =>
    cases hd with
    | mk k v =>
      rw [List.map_cons, List.nodup_cons] at hnd
      intro kv hkv
      rcases List.mem_cons.mp hkv with heq | hmem
      · subst heq
        simp [mapLookup]
      · have hne : k ≠ kv.1 := by
          intro hk
          apply hnd.1
          rw [hk]
          exact List.mem_map.mpr ⟨kv, hmem, rfl⟩
        simp only [mapLookup, if_neg hne]
        exact ih hnd.2 kv hmem

/-- If every desired entry is already present with the same value, the
non-empty-original loop emits nothing. -/
theorem existingMapLoop_self_nil (path : List Char)
    (origMap : List (List Char × List Char)) :
    ∀ l, (∀ kv ∈ l, mapLookup origMap kv.1 = some kv.2) →
      existingMapLoop path origMap l = [] := by
  intro l
  induction l with
  | nil => intro _; rfl
  | cons hd rest ih =>
    cases hd with
    | mk k v =>
      intro hall
      have hk := hall (k, v) (List.mem_cons_self _ _)
      simp only [existingMapLoop, hk]
      rw [if_neg (by simp)]
      exact ih (fun kv hkv => hall kv (List.mem_cons_of_mem _ hkv))

/-- C8: whenever the computed operation list is empty - in particular when
the desired map equals the original non-empty map (with unique keys, as Go
maps have) - the builder returns the NoPatchRequired sentinel with message
"nothing to patch in map" and a nil apply thunk. -/
theorem c8_map_no_patch_sentinel (path : List Char)
    (origMap newMap : List (List Char × List Char)) :
    ((JsonPatchMap path origMap newMap).patches = [] →
      JsonPatchMap path origMap newMap =
        ⟨[], none, some ⟨"nothing to patch in map".toList⟩⟩) ∧
    (origMap ≠ [] → (origMap.map Prod.fst).Nodup →
      JsonPatchMap path origMap origMap =
        ⟨[], none, some ⟨"nothing to patch in map".toList⟩⟩) := by
  constructor
  · intro hp
    rw [jsonPatchMap_patches] at hp
    have hnil : (if origMap.length = 0 then newMapLoop path newMap true
        else existingMapLoop path origMap newMap) = [] := List.map_eq_nil_iff.mp hp
    simp only [JsonPatchMap, hnil]
    simp
  · intro hne hnd
    have hlen : ¬ origMap.length = 0 := by simpa [List.length_eq_zero] using hne
    have hnil : existingMapLoop path origMap origMap = [] :=
      existingMapLoop_self_nil path origMap origMap (mapLookup_self_of_nodup hnd)
    simp only [JsonPatchMap, if_neg hlen, hnil]
    simp

theorem c8_map_no_patch_sentinel_witness :
    JsonPatchMap "/metadata/labels".toList [("k1".toList, "v1".toList)]
        [("k1".toList, "v1".toList)] =
      ⟨[], none, some ⟨"nothing to patch in map".toList⟩⟩ :=
  (c8_map_no_patch_sentinel "/metadata/labels".toList [("k1".toList, "v1".toList)]
    [("k1".toList, "v1".toList)]).2 (by decide) (by decide)

/-- C6: the add builder creates a one-element list when the finalizer slice
is nil, and otherwise appends at /metadata/finalizers with the `-` append
token and no duplicate check (any non-nil slice, even one already holding
the value, yields the append operation). -/
theorem c6_finalizer_in (finalizers : Option (List (List Char))) (fin : List Char) :
    (finalizers = none →
      JsonPatchFinalizerIn finalizers fin =
        ⟨⟨addFinalizerNewListRender fin⟩,
          some (patchBody [addFinalizerNewListRender fin]), none⟩) ∧
    (∀ l, finalizers = some l →
      JsonPatchFinalizerIn finalizers fin =
        ⟨⟨addFinalizerAppendRender fin⟩,
          some (patchBody [addFinalizerAppendRender fin]), none⟩) := by
  constructor
  · intro h; subst h; rfl
  · intro l h; subst h; rfl

theorem c6_finalizer_in_witness :
    JsonPatchFinalizerIn none "fin1".toList =
      ⟨⟨addFinalizerNewListRender "fin1".toList⟩,
        some (patchBody [addFinalizerNewListRender "fin1".toList]), none⟩ ∧
    JsonPatchFinalizerIn (some ["fin1".toList]) "fin1".toList =
      ⟨⟨addFinalizerAppendRender "fin1".toList⟩,
        some (patchBody [addFinalizerAppendRender "fin1".toList]), none⟩ :=
  ⟨(c6_finalizer_in none "fin1".toList).1 rfl,
   (c6_finalizer_in (some ["fin1".toList]) "fin1".toList).2 ["fin1".toList] rfl⟩

/-- C10: a non-nil but zero-length finalizer slice takes the append branch
(the nil check, not the length, selects the branch), and the append
operation differs from the list-creating operation. -/
theorem c10_finalizer_in_empty_non_nil (fin : List Char) :
    JsonPatchFinalizerIn (some []) fin =
      ⟨⟨addFinalizerAppendRender fin⟩,
        some (patchBody [addFinalizerAppendRender fin]), none⟩ ∧
    addFinalizerAppendRender fin ≠ addFinalizerNewListRender fin := by
  constructor
  · rfl
  · intro heq
    have h43 := congrArg (fun l : List Char => l[43]?) heq
    simp only [addFinalizerAppendRender, addFinalizerNewListRender,
      List.append_assoc] at h43
    rw [List.getElem?_append_left (by decide),
      List.getElem?_append_left (by decide)] at h43
    exact absurd h43 (by decide)

/-- The removal loop finds no index when the value is absent from the list. -/
theorem removeFinalizerLoop_not_found (fin : List Char) :
    ∀ (l : List (List Char)) (s : Nat), fin ∉ l → removeFinalizerLoop l fin s = [] := by
  intro l
  induction l with
  | nil => intro s _; rfl
  | cons f rest ih =>
    intro s hnm
    have hf : ¬ f = fin := by
      intro hf
      exact hnm (by rw [← hf]; exact List.mem_cons_self _ _)
    simp only [removeFinalizerLoop, if_neg hf]
    exact ih (s + 1) (fun hm => hnm (List.mem_cons_of_mem _ hm))

/-- The removal loop started at s stops at the first matching index. -/
theorem removeFinalizerLoop_first (fin : List Char) :
    ∀ (l : List (List Char)) (i s : Nat),
      (∀ j, j < i → l[j]? ≠ some fin) → l[i]? = some fin →
      removeFinalizerLoop l fin s = removeFinalizerAtRender (s + i) := by
  intro l
  induction l with
  | nil => intro i s _ hat; simp at hat
  | cons f rest ih =>
    intro i s hbef hat
    cases i with
    | zero =>
      have hf : f = fin := by simpa using hat
      simp [removeFinalizerLoop, hf]
    | succ j =>
      have hf : ¬ f = fin := by
        have h0 := hbef 0 (Nat.succ_pos j)
        simpa using h0
      simp only [removeFinalizerLoop, if_neg hf]
      have hstep := ih j (s + 1)
        (fun j2 hj2 => by
          have hb := hbef (j2 + 1) (by omega)
          simpa using hb)
        (by simpa using hat)
      rw [hstep]
      congr 1
      omega

theorem removeFinalizerAtRender_ne_nil (idx : Nat) : removeFinalizerAtRender idx ≠ [] := by
  rw [removeFinalizerAtRender]
  apply List.append_ne_nil_of_left_ne_nil
  apply List.append_ne_nil_of_left_ne_nil
  decide

/-- C3: the remove builder removes the whole list path when the list has
exactly one element (whatever that element is); with more than one element
it removes the first index holding the requested value; and when the value
is absent (in a list whose length is not one, including the empty list) it
returns the NoPatchRequired sentinel "finalizer index not found" with no
apply thunk. -/
theorem c3_finalizer_out (finalizers : Option (List (List Char))) (fin : List Char) :
    ((getFinalizers finalizers).length = 1 →
      JsonPatchFinalizerOut finalizers fin =
        ⟨⟨removeAllFinalizersRender⟩, some (patchBody [removeAllFinalizersRender]), none⟩) ∧
    (1 < (getFinalizers finalizers).length →
      ∀ i, (∀ j, j < i → (getFinalizers finalizers)[j]? ≠ some fin) →
        (getFinalizers finalizers)[i]? = some fin →
        JsonPatchFinalizerOut finalizers fin =
          ⟨⟨removeFinalizerAtRender i⟩,
            some (patchBody [removeFinalizerAtRender i]), none⟩) ∧
    ((getFinalizers finalizers).length ≠ 1 → fin ∉ getFinalizers finalizers →
      JsonPatchFinalizerOut finalizers fin =
        ⟨⟨[]⟩, none, some ⟨"finalizer index not found".toList⟩⟩) := by
  refine ⟨?_, ?_, ?_⟩
  · intro h1
    simp only [JsonPatchFinalizerOut, if_pos h1]
    rfl
  · intro hgt i hbef hat
    have hne1 : ¬ (getFinalizers finalizers).length = 1 := by omega
    have hloop : removeFinalizerLoop (getFinalizers finalizers) fin 0 =
        removeFinalizerAtRender i := by
      have hfirst := removeFinalizerLoop_first fin (getFinalizers finalizers) i 0 hbef hat
      simpa using hfirst
    simp only [JsonPatchFinalizerOut, if_neg hne1, JsonPatch.Get, hloop]
    rw [if_neg (by simpa [List.length_eq_zero] using removeFinalizerAtRender_ne_nil i)]
  · intro hne1 hnm
    have hloop := removeFinalizerLoop_not_found fin (getFinalizers finalizers) 0 hnm
    simp only [JsonPatchFinalizerOut, if_neg hne1, JsonPatch.Get, hloop]
    rw [if_pos (show ([] : List Char).length = 0 from rfl)]

theorem c3_finalizer_out_witness :
    JsonPatchFinalizerOut (some ["f1".toList]) "f2".toList =
      ⟨⟨removeAllFinalizersRender⟩, some (patchBody [removeAllFinalizersRender]), none⟩ ∧
    JsonPatchFinalizerOut (some ["f1".toList, "f2".toList]) "f2".toList =
      ⟨⟨removeFinalizerAtRender 1⟩, some (patchBody [removeFinalizerAtRender 1]), none⟩ ∧
    JsonPatchFinalizerOut (some ["f1".toList, "f2".toList]) "f3".toList =
      ⟨⟨[]⟩, none, some ⟨"finalizer index not found".toList⟩⟩ :=
  ⟨(c3_finalizer_out (some ["f1".toList]) "f2".toList).1 (by decide),
   (c3_finalizer_out (some ["f1".toList, "f2".toList]) "f2".toList).2.1 (by decide) 1
     (fun j hj => by
       have hj0 : j = 0 := by omega
       subst hj0
       decide)
     (by decide),
   (c3_finalizer_out (some ["f1".toList, "f2".toList]) "f3".toList).2.2
     (by decide) (by decide)⟩

/-- C7: if serialization fails the error is returned with no patch and no
apply thunk; on success exactly one replace at /spec is emitted whose value
is the serialized payload (so any decoder inverting the serializer recovers
the payload), with a non-nil thunk and no error. -/
theorem c7_spec_replace {T : Type} (marshal : T → Except (List Char) (List Char))
    (unmarshal : List Char → Option T) (spec : T)
    (hinv : ∀ t m, marshal t = Except.ok m → unmarshal m = some t) :
    (∀ e, marshal spec = Except.error e →
      JsonPatchSpec marshal spec = ⟨⟨"".toList⟩, none, some e⟩) ∧
    (∀ m, marshal spec = Except.ok m →
      JsonPatchSpec marshal spec =
        ⟨⟨replaceSpecRender m⟩, some (patchBody [replaceSpecRender m]), none⟩ ∧
      unmarshal m = some spec) := by
  constructor
  · intro e he
    simp [JsonPatchSpec, he]
  · intro m hm
    refine ⟨?_, hinv spec m hm⟩
    simp [JsonPatchSpec, hm, JsonPatch.Get]

theorem c7_spec_replace_witness :
    JsonPatchSpec (fun t : List Char => Except.ok t) "x".toList =
      ⟨⟨replaceSpecRender "x".toList⟩,
        some (patchBody [replaceSpecRender "x".toList]), none⟩ ∧
    (some "x".toList : Option (List Char)) = some "x".toList :=
  (c7_spec_replace (fun t : List Char => Except.ok t) some "x".toList
    (fun t m hm => by cases hm; rfl)).2 "x".toList rfl

theorem addFinalizerNewListRender_ne_nil (f : List Char) :
    addFinalizerNewListRender f ≠ [] := by
  rw [addFinalizerNewListRender]
  apply List.append_ne_nil_of_left_ne_nil
  apply List.append_ne_nil_of_left_ne_nil
  decide

theorem addFinalizerAppendRender_ne_nil (f : List Char) :
    addFinalizerAppendRender f ≠ [] := by
  rw [addFinalizerAppendRender]
  apply List.append_ne_nil_of_left_ne_nil
  apply List.append_ne_nil_of_left_ne_nil
  decide

theorem replaceSpecRender_ne_nil (m : List Char) : replaceSpecRender m ≠ [] := by
  rw [replaceSpecRender]
  apply List.append_ne_nil_of_left_ne_nil
  apply List.append_ne_nil_of_left_ne_nil
  decide

/-- C9: every builder call returning no error (neither the NoPatchRequired
sentinel nor a serialization failure) returns a non-empty patch document:
the map builder a non-empty operation list, the other builders a non-empty
operation string. -/
theorem c9_success_nonempty_patches :
    (∀ (path : List Char) (origMap newMap : List (List Char × List Char)),
      (JsonPatchMap path origMap newMap).err = none →
      (JsonPatchMap path origMap newMap).patches ≠ []) ∧
    (∀ (finalizers : Option (List (List Char))) (fin : List Char),
      (JsonPatchFinalizerIn finalizers fin).err = none →
      (JsonPatchFinalizerIn finalizers fin).patch.Get ≠ []) ∧
    (∀ (finalizers : Option (List (List Char))) (fin : List Char),
      (JsonPatchFinalizerOut finalizers fin).err = none →
      (JsonPatchFinalizerOut finalizers fin).patch.Get ≠ []) ∧
    (∀ (T : Type) (marshal : T → Except (List Char) (List Char)) (spec : T),
      (JsonPatchSpec marshal spec).err = none →
      (JsonPatchSpec marshal spec).patch.Get ≠ []) := by
  refine ⟨?_, ?_, ?_, ?_⟩
  · intro path origMap newMap herr
    by_cases hnil : (if origMap.length = 0 then newMapLoop path newMap true
        else existingMapLoop path origMap newMap) = []
    · exfalso
      have hs : (JsonPatchMap path origMap newMap).err =
          some ⟨"nothing to patch in map".toList⟩ := by
        simp only [JsonPatchMap, hnil]
        simp
      rw [herr] at hs
      cases hs
    · rw [jsonPatchMap_patches]
      simpa using hnil
  · intro finalizers fin _
    cases finalizers with
    | none => exact addFinalizerNewListRender_ne_nil fin
    | some l => exact addFinalizerAppendRender_ne_nil fin
  · intro finalizers fin herr
    by_cases h1 : (getFinalizers finalizers).length = 1
    · simp only [JsonPatchFinalizerOut, if_pos h1]
      decide
    · by_cases h0 : (removeFinalizerLoop (getFinalizers finalizers) fin 0).length = 0
      · exfalso
        have hs : (JsonPatchFinalizerOut finalizers fin).err =
            some ⟨"finalizer index not found".toList⟩ := by
          simp only [JsonPatchFinalizerOut, if_neg h1, JsonPatch.Get]
          rw [if_pos h0]
        rw [herr] at hs
        cases hs
      · have hne : removeFinalizerLoop (getFinalizers finalizers) fin 0 ≠ [] := by
          intro hp
          exact h0 (by rw [hp]; rfl)
        simp only [JsonPatchFinalizerOut, if_neg h1, JsonPatch.Get]
        rw [if_neg h0]
        exact hne
  · intro T marshal spec herr
    cases hm : marshal spec with
    | error e =>
      exfalso
      have hs : (JsonPatchSpec marshal spec).err = some e := by
        simp [JsonPatchSpec, hm]
      rw [herr] at hs
      cases hs
    | ok m =>
      simp only [JsonPatchSpec, hm]
      exact replaceSpecRender_ne_nil m

theorem c9_success_nonempty_patches_witness :
    (JsonPatchMap "/p".toList [("a".toList, "1".toList)]
        [("b".toList, "2".toList)]).patches ≠ [] ∧
    (JsonPatchFinalizerIn (some []) "f".toList).patch.Get ≠ [] ∧
    (JsonPatchFinalizerOut (some ["f".toList]) "f".toList).patch.Get ≠ [] ∧
    (JsonPatchSpec (fun t : List Char => Except.ok t) "x".toList).patch.Get ≠ [] :=
  ⟨c9_success_nonempty_patches.1 "/p".toList [("a".toList, "1".toList)]
      [("b".toList, "2".toList)] (by decide),
   c9_success_nonempty_patches.2.1 (some []) "f".toList rfl,
   c9_success_nonempty_patches.2.2.1 (some ["f".toList]) "f".toList (by decide),
   c9_success_nonempty_patches.2.2.2 (List Char) (fun t => Except.ok t) "x".toList rfl⟩

end PatchUtils
